import Mathlib

/-!
Verification of the in-memory line-oriented task store of the todolala
repository.  The C source (todo.c / todo.h) is shallowly embedded: a stored
line is a list of characters (the content of one C string), the loaded
document (the global todo_lines array) is a list of lines, with the empty
list playing the role of the NULL pointer, and each C function becomes a
pure Lean function on these values.
-/

namespace Todolala

/-- One stored line: the characters of one C string from the todo_lines
array (C strings are NUL-terminated, so the model carries no NUL byte). -/
abbrev Line := List Char

/-- The loaded document: the NULL-terminated todo_lines array.  The empty
list plays the role of the NULL pointer (get_all_lines never produces a
non-NULL empty array). -/
abbrev Doc := List Line

/-- C's isspace in the default locale: space, tab, newline, vertical tab,
form feed, carriage return. -/
def isCSpace (c : Char) : Bool :=
  c = ' ' || c = '\t' || c = '\n' || c = Char.ofNat 11 || c = Char.ofNat 12 || c = '\r'

/-- skip_leading_whitespace: advance past isspace characters. -/
def skip_leading_whitespace (s : Line) : Line :=
  s.dropWhile isCSpace

/-- The 5-character marker of an unfinished task. -/
def unfinishedMarker : Line := ("- [ ]").data

/-- The 5-character marker of a finished task. -/
def finishedMarker : Line := ("- [x]").data

/-- Classification test used by get_unfinished_tasks:
strncmp(skip_leading_whitespace(line), "- [ ]", 5) == 0. -/
def isUnfinished (l : Line) : Bool :=
  decide ((skip_leading_whitespace l).take 5 = unfinishedMarker)

/-- Classification test used by get_finished_tasks:
strncmp(skip_leading_whitespace(line), "- [x]", 5) == 0. -/
def isFinished (l : Line) : Bool :=
  decide ((skip_leading_whitespace l).take 5 = finishedMarker)

/-- The scanning loop shared by get_unfinished_tasks and
get_finished_tasks: walk the array front to back with a counter i,
collecting the positions whose line satisfies the classification test. -/
def collect_tasks (p : Line → Bool) : Doc → Nat → List Nat
  | [], _ => []
  | l :: rest, i =>
    if p l then i :: collect_tasks p rest (i + 1) else collect_tasks p rest (i + 1)

/-- get_unfinished_tasks: positions of all lines starting (after
whitespace stripping) with the unfinished marker. -/
def get_unfinished_tasks (doc : Doc) : List Nat :=
  collect_tasks isUnfinished doc 0

/-- get_finished_tasks: positions of all lines starting (after whitespace
stripping) with the finished marker. -/
def get_finished_tasks (doc : Doc) : List Nat :=
  collect_tasks isFinished doc 0

/-- delete_line: free the line at the given index and shift every later
line up by one slot. -/
def delete_line : Doc → Nat → Doc
  | [], _ => []
  | _ :: rest, 0 => rest
  | l :: rest, n + 1 => l :: delete_line rest n

/-- remove_finished_tasks: compute the finished index and, if non-empty,
delete the finished lines from bottom to top. -/
def remove_finished_tasks (doc : Doc) : Doc :=
  let finished := get_finished_tasks doc
  if finished.length = 0 then doc
  else finished.reverse.foldl delete_line doc

/-- The in-place marker rewrite inside check_todo: if the stripped line
begins with "- [ ]", overwrite those 5 bytes (at the stripped offset) with
"- [x]". -/
def mark_finished (l : Line) : Line :=
  let ws := l.takeWhile isCSpace
  let t := l.dropWhile isCSpace
  if t.take 5 = unfinishedMarker then ws ++ finishedMarker ++ t.drop 5 else l

/-- check_todo: validate the 1-based index against a freshly computed
unfinished index, then rewrite the marker of the resolved line. -/
def check_todo (doc : Doc) (index : Int) : Doc :=
  if index ≤ 0 then doc
  else
    let unfinished := get_unfinished_tasks doc
    if unfinished.length = 0 then doc
    else if (unfinished.length : Int) < index then doc
    else
      let li := unfinished.getD (index.toNat - 1) 0
      doc.set li (mark_finished (doc.getD li []))

/-- remove_task: validate the 1-based index against a freshly computed
unfinished index, then delete the resolved line. -/
def remove_task (doc : Doc) (index : Int) : Doc :=
  if index ≤ 0 then doc
  else
    let unfinished := get_unfinished_tasks doc
    if unfinished.length = 0 then doc
    else if (unfinished.length : Int) < index then doc
    else delete_line doc (unfinished.getD (index.toNat - 1) 0)

/-- C's atoi on one token: skip isspace, optional sign, then a run of
decimal digits (0 when no digits follow). -/
def atoi (s : List Char) : Int :=
  let t := s.dropWhile isCSpace
  match t with
  | '-' :: rest => -((Nat.ofDigits 10 (((rest.takeWhile Char.isDigit).map
      (fun c => c.toNat - 48)).reverse) : Nat) : Int)
  | '+' :: rest => ((Nat.ofDigits 10 (((rest.takeWhile Char.isDigit).map
      (fun c => c.toNat - 48)).reverse) : Nat) : Int)
  | _ => ((Nat.ofDigits 10 (((t.takeWhile Char.isDigit).map
      (fun c => c.toNat - 48)).reverse) : Nat) : Int)

/-- call_fn_with_indexes: parse each remaining argument with atoi, skip
the non-positive results, sort the survivors in descending order (the
compare_int_desc qsort) and apply the operation once per number in that
order. -/
def call_fn_with_indexes (args : List (List Char)) (fn : Doc → Int → Doc)
    (doc : Doc) : Doc :=
  let indexes := (args.map atoi).filter (fun i => decide (0 < i))
  let sorted := List.insertionSort (fun a b => a ≥ b) indexes
  sorted.foldl fn doc

/-- The trailing-terminator test inside add_todo: the document was loaded
(todo_lines non-NULL), its last stored line is non-empty and its last
character is not a newline. -/
def needsNewline (doc : Doc) : Bool :=
  match doc.getLast? with
  | none => false
  | some ll => !ll.isEmpty && decide (ll.getLast? ≠ some '\n')

/-- add_todo: the bytes appended to the backing file — a newline first when
the loaded document's last line lacks one, then the task line
"- [ ] <task>" with its terminator. -/
def add_todo (doc : Doc) (task : List Char) : List Char :=
  (if needsNewline doc then ['\n'] else [])
    ++ ("- [ ] ").data ++ task ++ ['\n']

/-- add_todo writes only to the backing file: the in-memory document
(the global todo_lines array) is left untouched by it. -/
def add_todo_doc (doc : Doc) (_task : List Char) : Doc := doc

/-- One fgets call with a 256-byte buffer: consume up to 255 characters,
stopping right after a newline, and return the stored line together with
the unread remainder of the file. -/
def readLineAux : Nat → List Char → List Char × List Char
  | 0, s => ([], s)
  | _ + 1, [] => ([], [])
  | n + 1, c :: rest =>
    if c = '\n' then ([c], rest)
    else
      let p := readLineAux n rest
      (c :: p.1, p.2)

/-- The fgets loop of get_all_lines, with explicit fuel (one unit per
stored line; the real loop terminates because every fgets call consumes at
least one character). -/
def linesOfAux : Nat → List Char → Doc
  | _, [] => []
  | 0, _ :: _ => []
  | fuel + 1, c :: rest =>
    let p := readLineAux 255 (c :: rest)
    p.1 :: linesOfAux fuel p.2

/-- get_all_lines: split the file content into the stored lines, 255
characters at most per fgets call.  An absent or empty file yields the
NULL document (the empty list). -/
def get_all_lines (content : List Char) : Doc :=
  linesOfAux content.length content

/-- save_todos applied to a backing store: if the document was never
loaded (NULL) nothing is written and the store keeps its bytes; otherwise
the store is overwritten with every stored line in order, verbatim. -/
def save_todos (doc : Doc) (store : List Char) : List Char :=
  if doc = [] then store else doc.flatten

/-! ### Basic facts about the scanning loop -/

theorem collect_tasks_length (p : Line → Bool) :
    ∀ (doc : Doc) (i : Nat), (collect_tasks p doc i).length = doc.countP p := by
  intro doc
  induction doc with
  | nil => intro i; simp [collect_tasks, List.countP_nil]
  | cons l rest ih =>
    intro i
    by_cases hp : p l
    · simp [collect_tasks, hp, ih, List.countP_cons]
    · simp [collect_tasks, hp, ih, List.countP_cons]

theorem collect_tasks_shift (p : Line → Bool) :
    ∀ (doc : Doc) (i : Nat),
      collect_tasks p doc i = (collect_tasks p doc 0).map (· + i) := by
  intro doc
  induction doc with
  | nil => intro i; simp [collect_tasks]
  | cons l rest ih =>
    intro i
    have hmm : ∀ j : Nat,
        ((collect_tasks p rest 0).map (· + j)).map (· + i)
          = (collect_tasks p rest 0).map (· + (j + i)) := by
      intro j
      rw [List.map_map]
      apply List.map_congr_left
      intro a _
      simp [Function.comp, Nat.add_assoc]
    by_cases hp : p l
    · simp only [collect_tasks, hp, if_true, ih (i + 1), ih 1, List.map_cons, hmm]
      simp [Nat.add_comm]
    · simp only [collect_tasks, hp, if_false, Bool.false_eq_true, ih (i + 1), ih 1, hmm]
      simp [Nat.add_comm]

theorem collect_tasks_eq_filter_range (p : Line → Bool) :
    ∀ doc : Doc,
      collect_tasks p doc 0
        = (List.range doc.length).filter (fun j => p (doc.getD j [])) := by
  intro doc
  induction doc with
  | nil => simp [collect_tasks]
  | cons l rest ih =>
    have hstep : collect_tasks p (l :: rest) 0
        = if p l then 0 :: (collect_tasks p rest 0).map (· + 1)
          else (collect_tasks p rest 0).map (· + 1) := by
      by_cases hp : p l <;>
        simp [collect_tasks, hp, collect_tasks_shift p rest 1]
    rw [hstep, List.length_cons, List.range_succ_eq_map, List.filter_cons,
      List.filter_map]
    have hcomp : (fun j => p ((l :: rest).getD j [])) ∘ Nat.succ
        = fun j => p (rest.getD j []) := by
      funext j
      simp
    rw [hcomp, ← ih]
    have hsucc : (collect_tasks p rest 0).map Nat.succ
        = (collect_tasks p rest 0).map (· + 1) := by
      apply List.map_congr_left
      intro a _
      exact Nat.succ_eq_add_one a
    by_cases hp : p l
    · simp [hp, hsucc]
    · simp [hp, hsucc]

theorem getD_map_add_one :
    ∀ (c : List Nat) (k : Nat), k < c.length →
      (c.map (· + 1)).getD k 0 = c.getD k 0 + 1 := by
  intro c
  induction c with
  | nil => intro k hk; simp at hk
  | cons x xs ih =>
    intro k hk
    cases k with
    | zero => simp
    | succ k =>
      simp only [List.map_cons, List.getD_cons_succ]
      exact ih k (by simpa using Nat.lt_of_succ_lt_succ hk)

/-- The element at position k of the scanned index is a document position:
it is in range, its line satisfies the classification test, and exactly k
earlier lines satisfy it. -/
theorem collect_tasks_getD (p : Line → Bool) :
    ∀ (doc : Doc) (k : Nat), k < (collect_tasks p doc 0).length →
      (collect_tasks p doc 0).getD k 0 < doc.length ∧
      p (doc.getD ((collect_tasks p doc 0).getD k 0) []) = true ∧
      (doc.take ((collect_tasks p doc 0).getD k 0)).countP p = k := by
  intro doc
  induction doc with
  | nil => intro k hk; simp [collect_tasks] at hk
  | cons l rest ih =>
    intro k hk
    have hstep : collect_tasks p (l :: rest) 0
        = if p l then 0 :: (collect_tasks p rest 0).map (· + 1)
          else (collect_tasks p rest 0).map (· + 1) := by
      by_cases hp : p l <;>
        simp [collect_tasks, hp, collect_tasks_shift p rest 1]
    by_cases hp : p l
    · rw [hstep, if_pos hp] at hk ⊢
      cases k with
      | zero =>
        refine ⟨Nat.succ_pos _, ?_, ?_⟩
        · simpa using hp
        · simp
      | succ k =>
        have hk' : k < (collect_tasks p rest 0).length := by
          simpa using Nat.lt_of_succ_lt_succ hk
        obtain ⟨h1, h2, h3⟩ := ih k hk'
        have hmap := getD_map_add_one (collect_tasks p rest 0) k hk'
        simp only [List.getD_cons_succ, hmap]
        refine ⟨Nat.succ_lt_succ h1, by simpa using h2, ?_⟩
        rw [List.take_succ_cons, List.countP_cons_of_pos _ _ hp, h3]
    · rw [hstep, if_neg hp] at hk ⊢
      have hk' : k < (collect_tasks p rest 0).length := by simpa using hk
      obtain ⟨h1, h2, h3⟩ := ih k hk'
      have hmap := getD_map_add_one (collect_tasks p rest 0) k hk'
      rw [hmap]
      refine ⟨Nat.succ_lt_succ h1, by simpa using h2, ?_⟩
      rw [List.take_succ_cons, List.countP_cons_of_neg _ _ hp, h3]

/-! ### Facts about set, getD and delete_line -/

theorem getD_set_ne :
    ∀ (l : Doc) (n : Nat) (a : Line) (j : Nat), j ≠ n →
      (l.set n a).getD j [] = l.getD j [] := by
  intro l
  induction l with
  | nil => intro n a j _; simp
  | cons x rest ih =>
    intro n a j hj
    cases n with
    | zero =>
      cases j with
      | zero => exact absurd rfl hj
      | succ j => simp
    | succ n =>
      cases j with
      | zero => simp
      | succ j =>
        simp only [List.set_cons_succ, List.getD_cons_succ]
        exact ih n a j (fun h => hj (by rw [h]))

theorem set_eq_take_cons_drop :
    ∀ (l : Doc) (n : Nat) (a : Line), n < l.length →
      l.set n a = l.take n ++ a :: l.drop (n + 1) := by
  intro l
  induction l with
  | nil => intro n a h; simp at h
  | cons x rest ih =>
    intro n a h
    cases n with
    | zero => simp
    | succ n =>
      simp only [List.set_cons_succ, List.take_succ_cons, List.drop_succ_cons,
        List.cons_append]
      rw [ih n a (Nat.lt_of_succ_lt_succ h)]

theorem take_getD_drop :
    ∀ (l : Doc) (n : Nat), n < l.length →
      l.take n ++ l.getD n [] :: l.drop (n + 1) = l := by
  intro l
  induction l with
  | nil => intro n h; simp at h
  | cons x rest ih =>
    intro n h
    cases n with
    | zero => simp
    | succ n =>
      simp only [List.take_succ_cons, List.getD_cons_succ, List.drop_succ_cons,
        List.cons_append, List.cons.injEq, true_and]
      exact ih n (Nat.lt_of_succ_lt_succ h)

theorem delete_line_eq_take_drop :
    ∀ (l : Doc) (n : Nat), delete_line l n = l.take n ++ l.drop (n + 1) := by
  intro l
  induction l with
  | nil => intro n; simp [delete_line]
  | cons x rest ih =>
    intro n
    cases n with
    | zero => simp [delete_line]
    | succ n => simp [delete_line, ih n]

theorem delete_line_append (A : Doc) (x : Line) (B : Doc) :
    delete_line (A ++ x :: B) A.length = A ++ B := by
  induction A with
  | nil => simp [delete_line]
  | cons a A ih => simp [delete_line, ih]

theorem countP_set_add (p : Line → Bool) :
    ∀ (l : Doc) (n : Nat) (a : Line), n < l.length →
      (l.set n a).countP p + (if p (l.getD n []) then 1 else 0)
        = l.countP p + (if p a then 1 else 0) := by
  intro l
  induction l with
  | nil => intro n a h; simp at h
  | cons x rest ih =>
    intro n a h
    cases n with
    | zero =>
      simp only [List.set_cons_zero, List.getD_cons_zero, List.countP_cons]
      omega
    | succ n =>
      simp only [List.set_cons_succ, List.getD_cons_succ, List.countP_cons]
      have := ih n a (Nat.lt_of_succ_lt_succ h)
      omega

/-! ### Facts about the markers and classification -/

theorem dropWhile_append_of_all {q : Char → Bool} :
    ∀ (ws t : List Char), (∀ c ∈ ws, q c = true) →
      List.dropWhile q (ws ++ t) = List.dropWhile q t := by
  intro ws
  induction ws with
  | nil => intro t _; rfl
  | cons c ws ih =>
    intro t h
    have hc : q c = true := h c (List.mem_cons_self c ws)
    simp only [List.cons_append, List.dropWhile_cons, hc, if_true]
    exact ih t (fun d hd => h d (List.mem_cons_of_mem c hd))

theorem skip_marked_line (ws r : List Char) (hws : ∀ c ∈ ws, isCSpace c = true) :
    skip_leading_whitespace (ws ++ finishedMarker ++ r)
      = finishedMarker ++ r := by
  unfold skip_leading_whitespace
  rw [List.append_assoc, dropWhile_append_of_all ws _ hws]
  rfl

theorem marked_line_isFinished (ws r : List Char)
    (hws : ∀ c ∈ ws, isCSpace c = true) :
    isFinished (ws ++ finishedMarker ++ r) = true := by
  unfold isFinished
  rw [skip_marked_line ws r hws]
  simp [finishedMarker]

theorem marked_line_not_isUnfinished (ws r : List Char)
    (hws : ∀ c ∈ ws, isCSpace c = true) :
    isUnfinished (ws ++ finishedMarker ++ r) = false := by
  unfold isUnfinished
  rw [skip_marked_line ws r hws]
  simp [finishedMarker, unfinishedMarker]

theorem isUnfinished_not_isFinished (l : Line) (h : isUnfinished l = true) :
    isFinished l = false := by
  unfold isUnfinished at h
  unfold isFinished
  rw [of_decide_eq_true h]
  simp [unfinishedMarker, finishedMarker]

/-- Splitting an unfinished line at the whitespace-stripped offset: the
stripped tail starts with the 5 marker characters. -/
theorem isUnfinished_split (l : Line) (h : isUnfinished l = true) :
    l = l.takeWhile isCSpace
        ++ unfinishedMarker ++ (l.dropWhile isCSpace).drop 5 := by
  have h5 : (skip_leading_whitespace l).take 5 = unfinishedMarker :=
    of_decide_eq_true h
  conv_lhs => rw [← List.takeWhile_append_dropWhile isCSpace l]
  rw [List.append_assoc]
  congr 1
  conv_lhs => rw [← List.take_append_drop 5 (l.dropWhile isCSpace)]
  rw [← h5]
  rfl

theorem mark_finished_of_isUnfinished (l : Line) (h : isUnfinished l = true) :
    mark_finished l = l.takeWhile isCSpace
        ++ finishedMarker ++ (l.dropWhile isCSpace).drop 5 := by
  simp only [mark_finished]
  rw [if_pos (show (l.dropWhile isCSpace).take 5 = unfinishedMarker from
    of_decide_eq_true h)]

/-! ### C1: the derived unfinished/finished indices -/

/-- The document used by the repository's own unit test
(test_get_unfinished_tasks). -/
def exampleDoc : Doc :=
  [("- [ ] Task 1\n").data, ("- [x] Task 2\n").data, ("- [ ] Task 3\n").data]

/-- C1: get_unfinished_tasks and get_finished_tasks return, in
front-to-back scan order, exactly the 0-based positions of the lines whose
whitespace-stripped content begins with the matching 5-character marker;
both are empty for the absent document and for documents with no matching
line; on the three-line example document the unfinished index is [0, 2]
and the finished index is [1]. -/
theorem unfinished_finished_index_spec :
    (∀ doc : Doc,
      get_unfinished_tasks doc
          = (List.range doc.length).filter (fun j => isUnfinished (doc.getD j []))
        ∧ get_finished_tasks doc
          = (List.range doc.length).filter (fun j => isFinished (doc.getD j [])))
    ∧ get_unfinished_tasks [] = []
    ∧ get_finished_tasks [] = []
    ∧ (∀ doc : Doc, (∀ l ∈ doc, isUnfinished l = false) →
        get_unfinished_tasks doc = [])
    ∧ (∀ doc : Doc, (∀ l ∈ doc, isFinished l = false) →
        get_finished_tasks doc = [])
    ∧ get_unfinished_tasks exampleDoc = [0, 2]
    ∧ get_finished_tasks exampleDoc = [1] := by
  have hempty : ∀ (p : Line → Bool) (doc : Doc),
      (∀ l ∈ doc, p l = false) → collect_tasks p doc 0 = [] := by
    intro p doc h
    have : (collect_tasks p doc 0).length = 0 := by
      rw [collect_tasks_length]
      rw [List.countP_eq_zero]
      intro a ha
      simp [h a ha]
    exact List.length_eq_zero.mp this
  refine ⟨?_, rfl, rfl, ?_, ?_, by decide, by decide⟩
  · intro doc
    exact ⟨collect_tasks_eq_filter_range isUnfinished doc,
      collect_tasks_eq_filter_range isFinished doc⟩
  · intro doc h; exact hempty isUnfinished doc h
  · intro doc h; exact hempty isFinished doc h

/-- Witness for C1: a one-line document with no task line has empty
unfinished index. -/
theorem unfinished_finished_index_spec_witness :
    (∀ l ∈ [("hello").data], isUnfinished l = false)
      ∧ get_unfinished_tasks [("hello").data] = [] := by
  refine ⟨by decide, ?_⟩
  exact unfinished_finished_index_spec.2.2.2.1 [("hello").data] (by decide)

/-! ### C6: remove_finished_tasks removes exactly the finished lines -/

theorem foldl_delete_map_add_one :
    ∀ (xs : List Nat) (l : Line) (rest : Doc),
      (xs.map (· + 1)).foldl delete_line (l :: rest)
        = l :: xs.foldl delete_line rest := by
  intro xs
  induction xs with
  | nil => intro l rest; rfl
  | cons x xs ih =>
    intro l rest
    simp only [List.map_cons, List.foldl_cons]
    have hstep : delete_line (l :: rest) (x + 1) = l :: delete_line rest x := rfl
    rw [hstep, ih]

theorem foldl_delete_collect (p : Line → Bool) :
    ∀ doc : Doc,
      (collect_tasks p doc 0).reverse.foldl delete_line doc
        = doc.filter (fun l => !p l) := by
  intro doc
  induction doc with
  | nil => simp [collect_tasks]
  | cons l rest ih =>
    have hstep : collect_tasks p (l :: rest) 0
        = if p l then 0 :: (collect_tasks p rest 0).map (· + 1)
          else (collect_tasks p rest 0).map (· + 1) := by
      by_cases hp : p l <;>
        simp [collect_tasks, hp, collect_tasks_shift p rest 1]
    by_cases hp : p l
    · rw [hstep, if_pos hp, List.reverse_cons, List.foldl_append,
        ← List.map_reverse, foldl_delete_map_add_one, ih, List.foldl_cons,
        List.foldl_nil]
      have hdel : delete_line (l :: rest.filter (fun x => !p x)) 0
          = rest.filter (fun x => !p x) := rfl
      rw [hdel, List.filter_cons_of_neg]
      simp [hp]
    · rw [hstep, if_neg hp, ← List.map_reverse, foldl_delete_map_add_one, ih,
        List.filter_cons_of_pos]
      simp [hp]

theorem remove_finished_noop (X : Doc) (h : get_finished_tasks X = []) :
    remove_finished_tasks X = X := by
  simp only [remove_finished_tasks, h]
  simp

theorem remove_finished_eq_filter (doc : Doc) :
    remove_finished_tasks doc = doc.filter (fun l => !isFinished l) := by
  unfold remove_finished_tasks get_finished_tasks
  by_cases h : (collect_tasks isFinished doc 0).length = 0
  · rw [if_pos h]
    have hcount : doc.countP isFinished = 0 := by
      rw [← collect_tasks_length isFinished doc 0]; exact h
    rw [List.countP_eq_zero] at hcount
    have : ∀ a ∈ doc, (!isFinished a) = true := by
      intro a ha
      simp [hcount a ha]
    exact (List.filter_eq_self.mpr this).symm
  · rw [if_neg h]
    exact foldl_delete_collect isFinished doc

/-- C6: pruning the finished tasks is idempotent, and after one
application the finished index of the document is empty, so the second
application hits the no-op branch. -/
theorem remove_finished_idempotent (doc : Doc) :
    remove_finished_tasks (remove_finished_tasks doc) = remove_finished_tasks doc
    ∧ get_finished_tasks (remove_finished_tasks doc) = [] := by
  have hnone : get_finished_tasks (remove_finished_tasks doc) = [] := by
    rw [remove_finished_eq_filter]
    unfold get_finished_tasks
    apply List.length_eq_zero.mp
    rw [collect_tasks_length, List.countP_eq_zero]
    intro a ha
    have := List.of_mem_filter ha
    simp at this
    simp [this]
  exact ⟨remove_finished_noop _ hnone, hnone⟩

/-! ### C3, C4, C7: check_todo and remove_task -/

theorem get_unfinished_tasks_length (doc : Doc) :
    (get_unfinished_tasks doc).length = doc.countP isUnfinished :=
  collect_tasks_length isUnfinished doc 0

theorem get_finished_tasks_length (doc : Doc) :
    (get_finished_tasks doc).length = doc.countP isFinished :=
  collect_tasks_length isFinished doc 0

/-- The positional facts of collect_tasks_getD, restated for the
unfinished index. -/
theorem get_unfinished_tasks_getD (doc : Doc) (k : Nat)
    (hk : k < (get_unfinished_tasks doc).length) :
    (get_unfinished_tasks doc).getD k 0 < doc.length ∧
    isUnfinished (doc.getD ((get_unfinished_tasks doc).getD k 0) []) = true ∧
    (doc.take ((get_unfinished_tasks doc).getD k 0)).countP isUnfinished = k :=
  collect_tasks_getD isUnfinished doc k hk

theorem getD_set_self :
    ∀ (l : Doc) (n : Nat) (a : Line), n < l.length →
      (l.set n a).getD n [] = a := by
  intro l
  induction l with
  | nil => intro n a h; simp at h
  | cons x rest ih =>
    intro n a h
    cases n with
    | zero => simp
    | succ n =>
      simp only [List.set_cons_succ, List.getD_cons_succ]
      exact ih n a (Nat.lt_of_succ_lt_succ h)

/-- In-range unfolding of check_todo: all three validation guards pass and
the line resolved through the freshly computed unfinished index is
rewritten in place. -/
theorem check_todo_in_range (doc : Doc) (n : Int) (h1 : 1 ≤ n)
    (h2 : n ≤ ((get_unfinished_tasks doc).length : Int)) :
    check_todo doc n
      = doc.set ((get_unfinished_tasks doc).getD (n.toNat - 1) 0)
          (mark_finished
            (doc.getD ((get_unfinished_tasks doc).getD (n.toNat - 1) 0) [])) := by
  have hnle : ¬ n ≤ 0 := by omega
  have hlen0 : ¬ (get_unfinished_tasks doc).length = 0 := by omega
  have hnlt : ¬ ((get_unfinished_tasks doc).length : Int) < n := by omega
  simp only [check_todo]
  rw [if_neg hnle, if_neg hlen0, if_neg hnlt]

theorem remove_task_in_range (doc : Doc) (n : Int) (h1 : 1 ≤ n)
    (h2 : n ≤ ((get_unfinished_tasks doc).length : Int)) :
    remove_task doc n
      = delete_line doc ((get_unfinished_tasks doc).getD (n.toNat - 1) 0) := by
  have hnle : ¬ n ≤ 0 := by omega
  have hlen0 : ¬ (get_unfinished_tasks doc).length = 0 := by omega
  have hnlt : ¬ ((get_unfinished_tasks doc).length : Int) < n := by omega
  simp only [remove_task]
  rw [if_neg hnle, if_neg hlen0, if_neg hnlt]

/-- C3: for an in-range task number, check_todo rewrites only the
5-character marker of the resolved line at the whitespace-stripped offset,
leaves every other line byte-identical, and afterwards the unfinished
index is one element shorter and the finished index one element longer. -/
theorem check_todo_frame (doc : Doc) (n : Int) (h1 : 1 ≤ n)
    (h2 : n ≤ ((get_unfinished_tasks doc).length : Int)) :
    (check_todo doc n).length = doc.length
    ∧ (∀ j : Nat, j ≠ (get_unfinished_tasks doc).getD (n.toNat - 1) 0 →
        (check_todo doc n).getD j [] = doc.getD j [])
    ∧ (check_todo doc n).getD ((get_unfinished_tasks doc).getD (n.toNat - 1) 0) []
        = (doc.getD ((get_unfinished_tasks doc).getD (n.toNat - 1) 0) []).takeWhile
            isCSpace
          ++ finishedMarker
          ++ ((doc.getD ((get_unfinished_tasks doc).getD (n.toNat - 1) 0)
              []).dropWhile isCSpace).drop 5
    ∧ (get_unfinished_tasks (check_todo doc n)).length + 1
        = (get_unfinished_tasks doc).length
    ∧ (get_finished_tasks (check_todo doc n)).length
        = (get_finished_tasks doc).length + 1 := by
  have hk : n.toNat - 1 < (get_unfinished_tasks doc).length := by omega
  obtain ⟨hli_lt, hli_unf, _⟩ :=
    get_unfinished_tasks_getD doc (n.toNat - 1) hk
  set li := (get_unfinished_tasks doc).getD (n.toNat - 1) 0 with hli_def
  set old := doc.getD li [] with hold_def
  have hrw := check_todo_in_range doc n h1 h2
  have hmark := mark_finished_of_isUnfinished old hli_unf
  have hws : ∀ c ∈ old.takeWhile isCSpace, isCSpace c = true := by
    intro c hc
    exact List.mem_takeWhile_imp hc
  have hnew_fin : isFinished (mark_finished old) = true := by
    rw [hmark]; exact marked_line_isFinished _ _ hws
  have hnew_unf : isUnfinished (mark_finished old) = false := by
    rw [hmark]; exact marked_line_not_isUnfinished _ _ hws
  have hold_fin : isFinished old = false := isUnfinished_not_isFinished old hli_unf
  refine ⟨?_, ?_, ?_, ?_, ?_⟩
  · rw [hrw, List.length_set]
  · intro j hj
    rw [hrw]
    exact getD_set_ne doc li (mark_finished old) j hj
  · rw [hrw, getD_set_self doc li (mark_finished old) hli_lt, hmark]
  · have hcount := countP_set_add isUnfinished doc li (mark_finished old) hli_lt
    rw [← hold_def, hli_unf, hnew_unf] at hcount
    simp only [if_true, Bool.false_eq_true, if_false] at hcount
    have e1 : (get_unfinished_tasks (check_todo doc n)).length
        = (doc.set li (mark_finished old)).countP isUnfinished := by
      rw [hrw, ← hli_def, get_unfinished_tasks_length]
    have e2 := get_unfinished_tasks_length doc
    omega
  · have hcount := countP_set_add isFinished doc li (mark_finished old) hli_lt
    rw [← hold_def, hold_fin, hnew_fin] at hcount
    simp only [if_true, Bool.false_eq_true, if_false] at hcount
    have e1 : (get_finished_tasks (check_todo doc n)).length
        = (doc.set li (mark_finished old)).countP isFinished := by
      rw [hrw, ← hli_def, get_finished_tasks_length]
    have e2 := get_finished_tasks_length doc
    omega

/-- Witness for C3 on the repository's example document at task number 1. -/
theorem check_todo_frame_witness :
    ((1 : Int) ≤ 1 ∧ (1 : Int) ≤ ((get_unfinished_tasks exampleDoc).length : Int))
    ∧ ((check_todo exampleDoc 1).length = exampleDoc.length
      ∧ (∀ j : Nat, j ≠ (get_unfinished_tasks exampleDoc).getD (Int.toNat 1 - 1) 0 →
          (check_todo exampleDoc 1).getD j [] = exampleDoc.getD j [])
      ∧ (check_todo exampleDoc 1).getD
            ((get_unfinished_tasks exampleDoc).getD (Int.toNat 1 - 1) 0) []
          = (exampleDoc.getD
              ((get_unfinished_tasks exampleDoc).getD (Int.toNat 1 - 1) 0)
              []).takeWhile isCSpace
            ++ finishedMarker
            ++ ((exampleDoc.getD
                ((get_unfinished_tasks exampleDoc).getD (Int.toNat 1 - 1) 0)
                []).dropWhile isCSpace).drop 5
      ∧ (get_unfinished_tasks (check_todo exampleDoc 1)).length + 1
          = (get_unfinished_tasks exampleDoc).length
      ∧ (get_finished_tasks (check_todo exampleDoc 1)).length
          = (get_finished_tasks exampleDoc).length + 1) :=
  ⟨⟨by decide, by decide⟩, check_todo_frame exampleDoc 1 (by decide) (by decide)⟩

/-- C4: for an in-range task number, remove_task deletes exactly the
resolved line (all later lines shift up by one), the recomputed unfinished
index is one element shorter, and the remaining unfinished lines are the
old ones with the n-th deleted, in unchanged relative order. -/
theorem remove_task_spec (doc : Doc) (n : Int) (h1 : 1 ≤ n)
    (h2 : n ≤ ((get_unfinished_tasks doc).length : Int)) :
    remove_task doc n
      = doc.take ((get_unfinished_tasks doc).getD (n.toNat - 1) 0)
        ++ doc.drop ((get_unfinished_tasks doc).getD (n.toNat - 1) 0 + 1)
    ∧ (get_unfinished_tasks (remove_task doc n)).length + 1
        = (get_unfinished_tasks doc).length
    ∧ (remove_task doc n).filter isUnfinished
        = delete_line (doc.filter isUnfinished) (n.toNat - 1) := by
  have hk : n.toNat - 1 < (get_unfinished_tasks doc).length := by omega
  obtain ⟨hli_lt, hli_unf, hli_count⟩ :=
    get_unfinished_tasks_getD doc (n.toNat - 1) hk
  set k := n.toNat - 1 with hk_def
  set li := (get_unfinished_tasks doc).getD k 0 with hli_def
  set old := doc.getD li [] with hold_def
  have hrw : remove_task doc n = doc.take li ++ doc.drop (li + 1) := by
    rw [remove_task_in_range doc n h1 h2, delete_line_eq_take_drop]
  have hdec : doc = doc.take li ++ old :: doc.drop (li + 1) :=
    (take_getD_drop doc li hli_lt).symm
  have hfd : doc.filter isUnfinished
      = (doc.take li).filter isUnfinished
        ++ old :: (doc.drop (li + 1)).filter isUnfinished := by
    conv_lhs => rw [hdec]
    rw [List.filter_append, List.filter_cons_of_pos hli_unf]
  have hlen : ((doc.take li).filter isUnfinished).length = k := by
    rw [← List.countP_eq_length_filter]
    exact hli_count
  refine ⟨hrw, ?_, ?_⟩
  · have e1 : (get_unfinished_tasks (remove_task doc n)).length
        = (doc.take li).countP isUnfinished
          + (doc.drop (li + 1)).countP isUnfinished := by
      rw [hrw, get_unfinished_tasks_length, List.countP_append]
    have e2 : (get_unfinished_tasks doc).length
        = (doc.take li).countP isUnfinished
          + ((doc.drop (li + 1)).countP isUnfinished + 1) := by
      rw [get_unfinished_tasks_length]
      conv_lhs => rw [hdec]
      rw [List.countP_append, List.countP_cons_of_pos _ _ hli_unf]
    omega
  · rw [hrw, List.filter_append, hfd, ← hlen, delete_line_append]

/-- Witness for C4 on the repository's example document at task number 1. -/
theorem remove_task_spec_witness :
    ((1 : Int) ≤ 1 ∧ (1 : Int) ≤ ((get_unfinished_tasks exampleDoc).length : Int))
    ∧ (remove_task exampleDoc 1
        = exampleDoc.take ((get_unfinished_tasks exampleDoc).getD (Int.toNat 1 - 1) 0)
          ++ exampleDoc.drop
              ((get_unfinished_tasks exampleDoc).getD (Int.toNat 1 - 1) 0 + 1)
      ∧ (get_unfinished_tasks (remove_task exampleDoc 1)).length + 1
          = (get_unfinished_tasks exampleDoc).length
      ∧ (remove_task exampleDoc 1).filter isUnfinished
          = delete_line (exampleDoc.filter isUnfinished) (Int.toNat 1 - 1)) :=
  ⟨⟨by decide, by decide⟩, remove_task_spec exampleDoc 1 (by decide) (by decide)⟩

/-- Shared helper: the validation guards of check_todo and remove_task
return the document unchanged for an out-of-range task number. -/
theorem out_of_range_noop (doc : Doc) (n : Int)
    (h : n ≤ 0 ∨ ((get_unfinished_tasks doc).length : Int) < n) :
    check_todo doc n = doc ∧ remove_task doc n = doc := by
  constructor
  · simp only [check_todo]
    by_cases h0 : n ≤ 0
    · rw [if_pos h0]
    · rw [if_neg h0]
      have hlt : ((get_unfinished_tasks doc).length : Int) < n := by
        rcases h with h | h
        · exact absurd h h0
        · exact h
      by_cases hlen : (get_unfinished_tasks doc).length = 0
      · rw [if_pos hlen]
      · rw [if_neg hlen, if_pos hlt]
  · simp only [remove_task]
    by_cases h0 : n ≤ 0
    · rw [if_pos h0]
    · rw [if_neg h0]
      have hlt : ((get_unfinished_tasks doc).length : Int) < n := by
        rcases h with h | h
        · exact absurd h h0
        · exact h
      by_cases hlen : (get_unfinished_tasks doc).length = 0
      · rw [if_pos hlen]
      · rw [if_neg hlen, if_pos hlt]

/-- C7: a task number that is non-positive or exceeds the current
unfinished count makes check_todo and remove_task leave the document
completely unchanged (the error branch mutates no line and deletes
nothing), including for the empty/absent document. -/
theorem invalid_index_noop (doc : Doc) (n : Int)
    (h : n ≤ 0 ∨ ((get_unfinished_tasks doc).length : Int) < n) :
    check_todo doc n = doc ∧ remove_task doc n = doc :=
  out_of_range_noop doc n h

/-- Witness for C7: the empty/absent document with task number 1. -/
theorem invalid_index_noop_witness :
    ((1 : Int) ≤ 0 ∨ ((get_unfinished_tasks []).length : Int) < 1)
    ∧ (check_todo [] 1 = [] ∧ remove_task [] 1 = []) :=
  ⟨by decide, invalid_index_noop [] 1 (by decide)⟩

/-! ### C2: non-task lines are pure passthrough content -/

/-- The passthrough subsequence of a document: the non-task lines, in
order, with their exact content. -/
def passthrough (doc : Doc) : Doc :=
  doc.filter (fun l => !(isUnfinished l || isFinished l))

theorem filter_set_preserved (q : Line → Bool) (doc : Doc) (li : Nat) (a : Line)
    (h : li < doc.length) (hold : q (doc.getD li []) = false)
    (hnew : q a = false) :
    (doc.set li a).filter q = doc.filter q := by
  rw [set_eq_take_cons_drop doc li a h, List.filter_append,
    List.filter_cons_of_neg (by rw [hnew]; decide)]
  conv_rhs => rw [← take_getD_drop doc li h]
  rw [List.filter_append, List.filter_cons_of_neg (by rw [hold]; decide)]

theorem filter_delete_preserved (q : Line → Bool) (doc : Doc) (li : Nat)
    (h : li < doc.length) (hold : q (doc.getD li []) = false) :
    (delete_line doc li).filter q = doc.filter q := by
  rw [delete_line_eq_take_drop, List.filter_append]
  conv_rhs => rw [← take_getD_drop doc li h]
  rw [List.filter_append, List.filter_cons_of_neg (by rw [hold]; decide)]

/-- C2: every operation (check_todo with any task number, remove_task with
any task number, remove_finished_tasks, add_todo) keeps every line that
matches neither marker byte-identical and in its relative order: the
passthrough subsequence of the document is unchanged (add_todo writes only
to the backing file and leaves the in-memory document untouched). -/
theorem passthrough_invariant (doc : Doc) (n : Int) (task : Line) :
    passthrough (check_todo doc n) = passthrough doc
    ∧ passthrough (remove_task doc n) = passthrough doc
    ∧ passthrough (remove_finished_tasks doc) = passthrough doc
    ∧ add_todo_doc doc task = doc := by
  have hq : ∀ l : Line, isUnfinished l = true →
      (!(isUnfinished l || isFinished l)) = false := by
    intro l h; simp [h]
  refine ⟨?_, ?_, ?_, rfl⟩
  · by_cases hin : 1 ≤ n ∧ n ≤ ((get_unfinished_tasks doc).length : Int)
    · obtain ⟨h1, h2⟩ := hin
      have hk : n.toNat - 1 < (get_unfinished_tasks doc).length := by omega
      obtain ⟨hli_lt, hli_unf, _⟩ :=
        get_unfinished_tasks_getD doc (n.toNat - 1) hk
      rw [check_todo_in_range doc n h1 h2]
      apply filter_set_preserved _ _ _ _ hli_lt (hq _ hli_unf)
      have hws : ∀ c ∈ (doc.getD ((get_unfinished_tasks doc).getD (n.toNat - 1) 0)
          []).takeWhile isCSpace, isCSpace c = true := by
        intro c hc; exact List.mem_takeWhile_imp hc
      have hfin : isFinished (mark_finished
          (doc.getD ((get_unfinished_tasks doc).getD (n.toNat - 1) 0) []))
            = true := by
        rw [mark_finished_of_isUnfinished _ hli_unf]
        exact marked_line_isFinished _ _ hws
      rw [hfin]
      simp
    · have hout : n ≤ 0 ∨ ((get_unfinished_tasks doc).length : Int) < n := by
        omega
      rw [(out_of_range_noop doc n hout).1]
  · by_cases hin : 1 ≤ n ∧ n ≤ ((get_unfinished_tasks doc).length : Int)
    · obtain ⟨h1, h2⟩ := hin
      have hk : n.toNat - 1 < (get_unfinished_tasks doc).length := by omega
      obtain ⟨hli_lt, hli_unf, _⟩ :=
        get_unfinished_tasks_getD doc (n.toNat - 1) hk
      rw [remove_task_in_range doc n h1 h2]
      exact filter_delete_preserved _ _ _ hli_lt (hq _ hli_unf)
    · have hout : n ≤ 0 ∨ ((get_unfinished_tasks doc).length : Int) < n := by
        omega
      rw [(out_of_range_noop doc n hout).2]
  · rw [remove_finished_eq_filter]
    unfold passthrough
    rw [List.filter_filter]
    apply List.filter_congr
    intro l _
    cases hu : isUnfinished l <;> cases hf : isFinished l <;> simp [hu, hf]

/-! ### C5: batch application of check/remove -/

/-- The document of the spec's batch scenario. -/
def docABC : Doc := [("- [ ] A").data, ("- [ ] B").data, ("- [ ] C").data]

/-- C5: call_fn_with_indexes keeps exactly the tokens that atoi parses to
a strictly positive integer (each bad token skipped individually), applies
the single-task operation once per surviving number in descending order,
and on the batch scenario removing user numbers [1, 3] (processed as
[3, 1]) from ["- [ ] A", "- [ ] B", "- [ ] C"] leaves ["- [ ] B"]. -/
theorem batch_apply_spec :
    (∀ (args : List (List Char)) (fn : Doc → Int → Doc) (doc : Doc),
      ∃ sorted : List Int,
        sorted.Perm ((args.map atoi).filter (fun i => decide (0 < i)))
        ∧ sorted.Sorted (· ≥ ·)
        ∧ call_fn_with_indexes args fn doc = sorted.foldl fn doc)
    ∧ (((["1", "3"].map String.data).map atoi).filter (fun i => decide (0 < i))
        = [1, 3])
    ∧ List.insertionSort (fun a b => a ≥ b)
        (((["1", "3"].map String.data).map atoi).filter (fun i => decide (0 < i)))
        = [3, 1]
    ∧ call_fn_with_indexes (["1", "3"].map String.data) remove_task docABC
        = [("- [ ] B").data]
    ∧ call_fn_with_indexes (["1", "x", "0", "3"].map String.data) remove_task
        docABC = [("- [ ] B").data] := by
  refine ⟨?_, by decide, by decide, by decide, by decide⟩
  intro args fn doc
  refine ⟨List.insertionSort (fun a b => a ≥ b)
    ((args.map atoi).filter (fun i => decide (0 < i))), ?_, ?_, rfl⟩
  · exact List.perm_insertionSort _ _
  · exact List.sorted_insertionSort _ _

/-! ### C8: loading and saving the backing file -/

theorem readLineAux_append :
    ∀ (n : Nat) (s : List Char),
      (readLineAux n s).1 ++ (readLineAux n s).2 = s := by
  intro n
  induction n with
  | zero => intro s; rfl
  | succ n ih =>
    intro s
    cases s with
    | nil => rfl
    | cons c rest =>
      by_cases hc : c = '\n'
      · simp [readLineAux, hc]
      · simp only [readLineAux, if_neg hc, List.cons_append, List.cons.injEq,
          true_and]
        exact ih rest

theorem readLineAux_snd_le :
    ∀ (n : Nat) (s : List Char), (readLineAux n s).2.length ≤ s.length := by
  intro n
  induction n with
  | zero => intro s; exact Nat.le_refl _
  | succ n ih =>
    intro s
    cases s with
    | nil => exact Nat.le_refl _
    | cons c rest =>
      by_cases hc : c = '\n'
      · simp [readLineAux, hc]
      · simp only [readLineAux, if_neg hc, List.length_cons]
        exact Nat.le_succ_of_le (ih rest)

theorem readLineAux_consumes (n : Nat) (c : Char) (rest : List Char) :
    (readLineAux (n + 1) (c :: rest)).2.length < (c :: rest).length := by
  by_cases hc : c = '\n'
  · simp [readLineAux, hc, Nat.lt_succ_self]
  · simp only [readLineAux, if_neg hc, List.length_cons]
    exact Nat.lt_succ_of_le (readLineAux_snd_le n rest)

theorem readLineAux_consumes255 (c : Char) (rest : List Char) :
    (readLineAux 255 (c :: rest)).2.length < (c :: rest).length :=
  readLineAux_consumes 254 c rest

theorem readLineAux_fst_ne (n : Nat) (c : Char) (rest : List Char) :
    (readLineAux (n + 1) (c :: rest)).1 ≠ [] := by
  by_cases hc : c = '\n'
  · simp [readLineAux, hc]
  · simp [readLineAux, if_neg hc]

theorem linesOfAux_fuel_irrel :
    ∀ (fuel fuel' : Nat) (s : List Char), s.length ≤ fuel → s.length ≤ fuel' →
      linesOfAux fuel s = linesOfAux fuel' s := by
  intro fuel
  induction fuel with
  | zero =>
    intro fuel' s h _
    have : s = [] := List.length_eq_zero.mp (Nat.le_zero.mp h)
    subst this
    cases fuel' <;> rfl
  | succ fuel ih =>
    intro fuel' s h h'
    cases s with
    | nil => cases fuel' <;> rfl
    | cons c rest =>
      cases fuel' with
      | zero => simp at h'
      | succ fuel' =>
        simp only [linesOfAux]
        have hcons := readLineAux_consumes255 c rest
        have hle : (readLineAux 255 (c :: rest)).2.length ≤ fuel := by
          simp only [List.length_cons] at hcons h
          omega
        have hle' : (readLineAux 255 (c :: rest)).2.length ≤ fuel' := by
          simp only [List.length_cons] at hcons h'
          omega
        rw [ih fuel' _ hle hle']

theorem get_all_lines_cons (c : Char) (rest : List Char) :
    get_all_lines (c :: rest)
      = (readLineAux 255 (c :: rest)).1
        :: get_all_lines ((readLineAux 255 (c :: rest)).2) := by
  show linesOfAux (rest.length + 1) (c :: rest) = _
  simp only [linesOfAux, get_all_lines]
  have hcons := readLineAux_consumes255 c rest
  simp only [List.length_cons] at hcons
  rw [linesOfAux_fuel_irrel rest.length (readLineAux 255 (c :: rest)).2.length _
    (by omega) (Nat.le_refl _)]

theorem get_all_lines_ne_nil (c : Char) (rest : List Char) :
    get_all_lines (c :: rest) ≠ [] := by
  rw [get_all_lines_cons]
  exact List.cons_ne_nil _ _

theorem flatten_linesOfAux :
    ∀ (fuel : Nat) (s : List Char), s.length ≤ fuel →
      (linesOfAux fuel s).flatten = s := by
  intro fuel
  induction fuel with
  | zero =>
    intro s h
    have : s = [] := List.length_eq_zero.mp (Nat.le_zero.mp h)
    subst this
    rfl
  | succ fuel ih =>
    intro s h
    cases s with
    | nil => rfl
    | cons c rest =>
      simp only [linesOfAux, List.flatten_cons]
      have hcons := readLineAux_consumes255 c rest
      have hle : (readLineAux 255 (c :: rest)).2.length ≤ fuel := by
        simp only [List.length_cons] at hcons h
        omega
      rw [ih _ hle, readLineAux_append]

theorem flatten_get_all_lines (content : List Char) :
    (get_all_lines content).flatten = content :=
  flatten_linesOfAux content.length content (Nat.le_refl _)

/-- C8: loading an existing backing file and immediately saving the loaded
document reproduces the file byte-for-byte — the stored lines keep their
terminators and are written back verbatim in order (an empty file loads as
the NULL document, for which save writes nothing and the store keeps its
bytes). -/
theorem load_save_roundtrip (content : List Char) :
    save_todos (get_all_lines content) content = content := by
  cases content with
  | nil => rfl
  | cons c rest =>
    unfold save_todos
    rw [if_neg (get_all_lines_ne_nil c rest)]
    exact flatten_get_all_lines (c :: rest)

/-! ### C9: add_todo and the trailing terminator -/

/-- When the first chunk ends inside A (A holds a newline or at least n
characters), reading from A ++ B reads the same chunk as reading from A. -/
theorem readLineAux_append_left :
    ∀ (n : Nat) (A B : List Char), '\n' ∈ A ∨ n ≤ A.length →
      readLineAux n (A ++ B) = ((readLineAux n A).1, (readLineAux n A).2 ++ B) := by
  intro n
  induction n with
  | zero => intro A B _; rfl
  | succ n ih =>
    intro A B h
    cases A with
    | nil =>
      rcases h with h | h
      · simp at h
      · simp at h
    | cons c A =>
      by_cases hc : c = '\n'
      · simp [readLineAux, hc]
      · have h' : '\n' ∈ A ∨ n ≤ A.length := by
          rcases h with h | h
          · left
            rcases List.mem_cons.mp h with h | h
            · exact absurd h.symm hc
            · exact h
          · right
            simp only [List.length_cons] at h
            omega
        simp only [List.cons_append, readLineAux, if_neg hc, List.append_eq,
          ih A B h']

theorem getLast?_ne_nil_right (A B : List Char) (h : B ≠ []) :
    (A ++ B).getLast? = B.getLast? := by
  rw [List.getLast?_append]
  cases hB : B.getLast? with
  | none => exact absurd (List.getLast?_eq_none_iff.mp hB) h
  | some b => rfl

theorem linesOfAux_append_of_newline_end :
    ∀ (fuel : Nat) (A B : List Char), A.length ≤ fuel →
      A.getLast? = some '\n' →
      get_all_lines (A ++ B) = get_all_lines A ++ get_all_lines B := by
  intro fuel
  induction fuel with
  | zero =>
    intro A B hle hlast
    have : A = [] := List.length_eq_zero.mp (Nat.le_zero.mp hle)
    subst this
    simp at hlast
  | succ fuel ih =>
    intro A B hle hlast
    obtain ⟨ys, hys⟩ := List.getLast?_eq_some_iff.mp hlast
    have hA_ne : A ≠ [] := by
      intro h; rw [h] at hlast; simp at hlast
    have hmem : '\n' ∈ A := by
      rw [hys]; exact List.mem_append_right ys (List.mem_singleton.mpr rfl)
    cases hA : A with
    | nil => exact absurd hA hA_ne
    | cons c A' =>
      rw [← hA]
      have hAB : A ++ B = c :: (A' ++ B) := by rw [hA]; rfl
      have hsplit := readLineAux_append_left 255 A B (Or.inl hmem)
      have hread : readLineAux 255 (A ++ B)
          = ((readLineAux 255 A).1, (readLineAux 255 A).2 ++ B) := hsplit
      have hcons_ab : get_all_lines (A ++ B)
          = (readLineAux 255 A).1 :: get_all_lines ((readLineAux 255 A).2 ++ B) := by
        rw [hAB, get_all_lines_cons, ← hAB, hread]
      have hcons_a : get_all_lines A
          = (readLineAux 255 A).1 :: get_all_lines ((readLineAux 255 A).2) := by
        rw [hA, get_all_lines_cons, ← hA]
      by_cases h2 : (readLineAux 255 A).2 = []
      · rw [hcons_ab, hcons_a, h2]
        simp [show get_all_lines ([] : List Char) = [] from rfl]
      · have hlast2 : (readLineAux 255 A).2.getLast? = some '\n' := by
          have hApp : (readLineAux 255 A).1 ++ (readLineAux 255 A).2 = A :=
            readLineAux_append 255 A
          rw [← hApp] at hlast
          rw [← getLast?_ne_nil_right (readLineAux 255 A).1 _ h2]
          exact hlast
        have hlt : (readLineAux 255 A).2.length < A.length := by
          rw [hA]; exact readLineAux_consumes255 c A'
        have hle2 : (readLineAux 255 A).2.length ≤ fuel := by omega
        rw [hcons_ab, hcons_a, ih _ B hle2 hlast2]
        rfl

theorem get_all_lines_append_of_newline_end (A B : List Char)
    (hlast : A.getLast? = some '\n') :
    get_all_lines (A ++ B) = get_all_lines A ++ get_all_lines B :=
  linesOfAux_append_of_newline_end A.length A B (Nat.le_refl _) hlast

theorem readLineAux_nil (n : Nat) : readLineAux n [] = ([], []) := by
  cases n <;> rfl

/-- A short line whose only possible newline is its last character is read
whole by one fgets call. -/
theorem readLineAux_whole :
    ∀ (n : Nat) (s : List Char), s.length ≤ n →
      (∀ c ∈ s.dropLast, c ≠ '\n') → readLineAux n s = (s, []) := by
  intro n
  induction n with
  | zero =>
    intro s h _
    have : s = [] := List.length_eq_zero.mp (Nat.le_zero.mp h)
    subst this
    rfl
  | succ n ih =>
    intro s h hnl
    cases s with
    | nil => rfl
    | cons c rest =>
      cases rest with
      | nil =>
        by_cases hc : c = '\n'
        · simp [readLineAux, hc]
        · simp [readLineAux, if_neg hc, readLineAux_nil]
      | cons d rest' =>
        have hc : c ≠ '\n' := by
          apply hnl
          rw [List.dropLast_cons_of_ne_nil (List.cons_ne_nil d rest')]
          exact List.mem_cons_self _ _
        have hrec := ih (d :: rest') (by simp only [List.length_cons] at h ⊢; omega)
          (by
            intro x hx
            apply hnl
            rw [List.dropLast_cons_of_ne_nil (List.cons_ne_nil d rest')]
            exact List.mem_cons_of_mem c hx)
        simp only [readLineAux, if_neg hc, hrec]

theorem get_all_lines_single (s : List Char) (hne : s ≠ [])
    (hlen : s.length ≤ 255) (hnl : ∀ c ∈ s.dropLast, c ≠ '\n') :
    get_all_lines s = [s] := by
  cases s with
  | nil => exact absurd rfl hne
  | cons c rest =>
    rw [get_all_lines_cons, readLineAux_whole 255 (c :: rest) hlen hnl]
    rfl

/-- Every stored line produced by the fgets loop is non-empty. -/
theorem linesOfAux_ne_nil :
    ∀ (fuel : Nat) (s : List Char) (l : Line), l ∈ linesOfAux fuel s → l ≠ [] := by
  intro fuel
  induction fuel with
  | zero =>
    intro s l hl
    cases s <;> simp [linesOfAux] at hl
  | succ fuel ih =>
    intro s l hl
    cases s with
    | nil => simp [linesOfAux] at hl
    | cons c rest =>
      simp only [linesOfAux, List.mem_cons] at hl
      rcases hl with hl | hl
      · rw [hl]; exact readLineAux_fst_ne 254 c rest
      · exact ih _ l hl

theorem flatten_getLast? :
    ∀ (L : Doc) (ll : Line), L.getLast? = some ll → ll ≠ [] →
      L.flatten.getLast? = ll.getLast? := by
  intro L
  induction L with
  | nil => intro ll h _; simp at h
  | cons l L ih =>
    intro ll h hll
    cases L with
    | nil =>
      simp only [List.getLast?_singleton, Option.some.injEq] at h
      subst h
      simp
    | cons m L' =>
      rw [List.getLast?_cons_cons] at h
      have hfl : (m :: L').flatten.getLast? = ll.getLast? := ih ll h hll
      have hfl_ne : (m :: L').flatten ≠ [] := by
        intro hemp
        rw [hemp] at hfl
        obtain ⟨c, hc⟩ : ∃ c, ll.getLast? = some c := by
          cases hlc : ll.getLast? with
          | none => exact absurd (List.getLast?_eq_none_iff.mp hlc) hll
          | some c => exact ⟨c, rfl⟩
        rw [hc] at hfl
        simp at hfl
      rw [List.flatten_cons, getLast?_ne_nil_right l _ hfl_ne]
      exact hfl

/-- A loaded non-empty file whose content does not end in a newline loads
to a document whose last stored line lacks the trailing terminator. -/
theorem needsNewline_of_no_terminator (content : List Char)
    (hne : content ≠ []) (hlast : content.getLast? ≠ some '\n') :
    needsNewline (get_all_lines content) = true := by
  obtain ⟨c, rest, hcr⟩ : ∃ c rest, content = c :: rest := by
    cases content with
    | nil => exact absurd rfl hne
    | cons c rest => exact ⟨c, rest, rfl⟩
  have hgal_ne : get_all_lines content ≠ [] := by
    rw [hcr]; exact get_all_lines_ne_nil c rest
  obtain ⟨ll, hll⟩ : ∃ ll, (get_all_lines content).getLast? = some ll := by
    cases hl : (get_all_lines content).getLast? with
    | none => exact absurd (List.getLast?_eq_none_iff.mp hl) hgal_ne
    | some ll => exact ⟨ll, rfl⟩
  have hll_mem : ll ∈ get_all_lines content := List.mem_of_getLast?_eq_some hll
  have hll_ne : ll ≠ [] := linesOfAux_ne_nil content.length content ll hll_mem
  have hlast_ll : ll.getLast? = content.getLast? := by
    rw [← flatten_get_all_lines content] at hlast ⊢
    exact (flatten_getLast? (get_all_lines content) ll hll hll_ne).symm
  simp only [needsNewline, hll]
  have h1 : ll.isEmpty = false := by
    cases ll with
    | nil => exact absurd rfl hll_ne
    | cons x xs => rfl
  have h2 : ll.getLast? ≠ some '\n' := by rw [hlast_ll]; exact hlast
  rw [h1]
  simp [h2]

/-- C9: add_todo always appends the task line "- [ ] <text>" with a line
terminator, writing one extra terminator first exactly when the loaded
document's last stored line lacks one; in that case, after reload the
previous content and the new task are separate lines: the reloaded
document is the reloaded terminator-completed old content followed by the
new task line. -/
theorem add_todo_terminator (content task : List Char)
    (h1 : content ≠ []) (h2 : content.getLast? ≠ some '\n')
    (h3 : task.length ≤ 248) (h4 : '\n' ∉ task) :
    (∀ (doc : Doc) (t : List Char), ∃ pre : List Char,
      (pre = [] ∨ pre = ['\n'])
      ∧ add_todo doc t = pre ++ ("- [ ] ").data ++ t ++ ['\n'])
    ∧ needsNewline (get_all_lines content) = true
    ∧ add_todo (get_all_lines content) task
        = '\n' :: (("- [ ] ").data ++ task ++ ['\n'])
    ∧ get_all_lines (content ++ add_todo (get_all_lines content) task)
        = get_all_lines (content ++ ['\n'])
          ++ [("- [ ] ").data ++ task ++ ['\n']] := by
  have hnn : needsNewline (get_all_lines content) = true :=
    needsNewline_of_no_terminator content h1 h2
  have happ : add_todo (get_all_lines content) task
      = '\n' :: (("- [ ] ").data ++ task ++ ['\n']) := by
    unfold add_todo
    rw [hnn]
    simp
  refine ⟨?_, hnn, happ, ?_⟩
  · intro doc t
    by_cases h : needsNewline doc
    · exact ⟨['\n'], Or.inr rfl, by simp [add_todo, h]⟩
    · exact ⟨[], Or.inl rfl, by simp [add_todo, h]⟩
  · rw [happ]
    have hassoc : content ++ '\n' :: (("- [ ] ").data ++ task ++ ['\n'])
        = (content ++ ['\n']) ++ (("- [ ] ").data ++ task ++ ['\n']) := by
      simp
    rw [hassoc]
    have hlastA : (content ++ ['\n']).getLast? = some '\n' := by
      rw [getLast?_ne_nil_right content ['\n'] (List.cons_ne_nil _ _)]
      rfl
    rw [get_all_lines_append_of_newline_end _ _ hlastA]
    congr 1
    apply get_all_lines_single
    · simp
    · have : (("- [ ] ").data ++ task ++ ['\n']).length = task.length + 7 := by
        simp [List.length_append]
      omega
    · intro c hc
      rw [show ("- [ ] ").data ++ task ++ ['\n']
            = (("- [ ] ").data ++ task) ++ ['\n'] from by simp,
        List.dropLast_concat] at hc
      rcases List.mem_append.mp hc with hc | hc
      · have hm : ∀ x ∈ ("- [ ] ").data, x ≠ '\n' := by decide
        exact hm c hc
      · intro heq
        rw [heq] at hc
        exact h4 hc

/-- Witness for C9: the one-line file "x" (no trailing newline) and the
task "T". -/
theorem add_todo_terminator_witness :
    ((("x").data ≠ []) ∧ (("x").data.getLast? ≠ some '\n')
      ∧ ((("T").data.length ≤ 248) ∧ ('\n' ∉ ("T").data)))
    ∧ ((∀ (doc : Doc) (t : List Char), ∃ pre : List Char,
        (pre = [] ∨ pre = ['\n'])
        ∧ add_todo doc t = pre ++ ("- [ ] ").data ++ t ++ ['\n'])
      ∧ needsNewline (get_all_lines (("x").data)) = true
      ∧ add_todo (get_all_lines (("x").data)) (("T").data)
          = '\n' :: (("- [ ] ").data ++ ("T").data ++ ['\n'])
      ∧ get_all_lines (("x").data ++ add_todo (get_all_lines (("x").data))
            (("T").data))
          = get_all_lines (("x").data ++ ['\n'])
            ++ [("- [ ] ").data ++ ("T").data ++ ['\n']]) :=
  ⟨⟨by decide, by decide, by decide, by decide⟩,
    add_todo_terminator (("x").data) (("T").data)
      (by decide) (by decide) (by decide) (by decide)⟩

/-! ### C10: lines longer than the 256-byte fgets buffer -/

/-- A file holding one source line of 256 characters plus its newline —
longer than the 255 characters one fgets call can store. -/
def longContent : List Char := List.replicate 256 'a' ++ ['\n']

set_option maxRecDepth 20000 in
/-- Counterexample to C10 as stated: loading a 256-character source line
does not produce a single 255-character stored line with the excess
discarded — it produces two stored lines (the first 255 characters, then
the remaining character with the newline), and nothing is discarded: the
stored lines still concatenate to the full file content. -/
theorem long_line_truncation_counterexample :
    get_all_lines longContent ≠ [List.replicate 255 'a']
    ∧ (get_all_lines longContent).length = 2
    ∧ get_all_lines longContent = [List.replicate 255 'a', ['a', '\n']]
    ∧ (get_all_lines longContent).flatten = longContent := by
  refine ⟨by decide, by decide, by decide, by decide⟩

theorem readLineAux_no_newline :
    ∀ (n : Nat) (s : List Char), n ≤ s.length →
      (∀ c ∈ s.take n, c ≠ '\n') →
      readLineAux n s = (s.take n, s.drop n) := by
  intro n
  induction n with
  | zero => intro s _ _; simp [readLineAux]
  | succ n ih =>
    intro s h hnl
    cases s with
    | nil => simp at h
    | cons c rest =>
      have hc : c ≠ '\n' := by
        apply hnl
        rw [List.take_succ_cons]
        exact List.mem_cons_self _ _
      have hrec := ih rest (by simp only [List.length_cons] at h; omega)
        (by
          intro x hx
          apply hnl
          rw [List.take_succ_cons]
          exact List.mem_cons_of_mem c hx)
      simp only [readLineAux, if_neg hc, hrec, List.take_succ_cons,
        List.drop_succ_cons]

/-- C10 amended: a source line longer than the 255 characters one fgets
call can store is split, not truncated: the first stored line holds
exactly the first 255 characters, loading continues with the remaining
characters, and no characters are discarded (the stored lines still
concatenate to the full file content). -/
theorem long_line_split (content : List Char) (h1 : 255 ≤ content.length)
    (h2 : ∀ c ∈ content.take 255, c ≠ '\n') :
    get_all_lines content = content.take 255 :: get_all_lines (content.drop 255)
    ∧ (get_all_lines content).flatten = content := by
  obtain ⟨c, rest, hcr⟩ : ∃ c rest, content = c :: rest := by
    cases content with
    | nil => simp at h1
    | cons c rest => exact ⟨c, rest, rfl⟩
  constructor
  · have hread : readLineAux 255 content = (content.take 255, content.drop 255) :=
      readLineAux_no_newline 255 content h1 h2
    rw [hcr] at hread ⊢
    rw [get_all_lines_cons, hread]
  · exact flatten_get_all_lines content

set_option maxRecDepth 20000 in
/-- Witness for the amended C10 on the 256-character source line. -/
theorem long_line_split_witness :
    (255 ≤ longContent.length ∧ (∀ c ∈ longContent.take 255, c ≠ '\n'))
    ∧ (get_all_lines longContent
        = longContent.take 255 :: get_all_lines (longContent.drop 255)
      ∧ (get_all_lines longContent).flatten = longContent) :=
  ⟨⟨by decide, by decide⟩, long_line_split longContent (by decide) (by decide)⟩

end Todolala
